import Mathlib

/-!
Verification of the Relay USB-HID command-line utility (Relay.cpp) against its
natural-language specification.

The development shallowly embeds the alias-registry subsystem and the
command-line dispatch of `Relay.cpp`.  The Windows registry is modelled as a
single optional string value together with a log of the values written through
`WriteRegSZ` (the only registry value the program uses is the `Aliases` string
under `SOFTWARE\WWES\Relay`).  The vendor relay driver is modelled as an
environment listing the enumerated modules: serial number, channel count and
status bitmask; driver initialisation is modelled as succeeding.

Regex matching in the source uses a fixed set of anchored ECMAScript patterns;
each is embedded as an executable character-level matcher that reproduces the
greedy/backtracking behaviour of the pattern on its character classes.
-/

namespace Relay

/-- Characters matched by the regex class `[A-Z0-9]` under `regex::icase`
(`T_SERNUM` building block in Relay.cpp). -/
def isAlnumC (c : Char) : Bool :=
  decide ('A' ≤ c ∧ c ≤ 'Z') || decide ('a' ≤ c ∧ c ≤ 'z') || decide ('0' ≤ c ∧ c ≤ '9')

/-- First-character class of `T_ALIAS_NAME` = `[_#~@A-Z0-9]` (icase). -/
def isAliasStart (c : Char) : Bool :=
  isAlnumC c || c == '_' || c == '#' || c == '~' || c == '@'

/-- Continuation class of `T_ALIAS_NAME` = `[-_#~@A-Z0-9]` (icase). -/
def isAliasCont (c : Char) : Bool :=
  isAliasStart c || c == '-'

/-- Characters of the `SET` pattern class `T_LOGIC_BITS` = `[0L1HX_.]` (icase). -/
def isBitChar (c : Char) : Bool :=
  c == '0' || c == 'L' || c == 'l' || c == '1' || c == 'H' || c == 'h' ||
  c == 'X' || c == 'x' || c == '_' || c == '.'

/-- The lowercase-to-uppercase ASCII letter table of the C locale. -/
def upPairs : List (Char × Char) :=
  [('a','A'),('b','B'),('c','C'),('d','D'),('e','E'),('f','F'),('g','G'),
   ('h','H'),('i','I'),('j','J'),('k','K'),('l','L'),('m','M'),('n','N'),
   ('o','O'),('p','P'),('q','Q'),('r','R'),('s','S'),('t','T'),('u','U'),
   ('v','V'),('w','W'),('x','X'),('y','Y'),('z','Z')]

/-- Model of C `::toupper` on the ASCII characters the program handles:
lowercase letters map to uppercase, everything else is unchanged. -/
def upChar (c : Char) : Char :=
  (((upPairs.find? (fun p => p.1 == c)).map (fun p => p.2)).getD c)

/-- Model of `std::transform(s.begin(), s.end(), s.begin(), ::toupper)`. -/
def upperStr (s : String) : String := ⟨s.data.map upChar⟩

/-! ## The alias-registry string scan

`regex_alias_registry` is `(T_ALIAS_NAME)[=:](T_SERNUM),?` (icase), used with
`regex_search` in a loop by `RemoveAlias`, `ListAlias` and `GetAliasSernum`.
On this pattern greedy matching is deterministic: the alias run cannot contain
`=` or `:`, so the separator position is the end of the maximal run of
alias-continuation characters. -/

/-- The optional `,?` at the end of `regex_alias_registry`. -/
def stripComma : List Char → List Char
  | ',' :: t => t
  | t => t

/-- Attempt to match `(T_ALIAS_NAME)[=:](T_SERNUM),?` at the start of the
character list; returns (alias capture, sernum capture, suffix). -/
def matchEntryAt : List Char → Option (List Char × List Char × List Char)
  | [] => none
  | c :: cs =>
    if isAliasStart c then
      match cs.dropWhile isAliasCont with
      | sep :: c1 :: c2 :: c3 :: c4 :: c5 :: r3 =>
        if (sep == '=' || sep == ':') && isAlnumC c1 && isAlnumC c2 && isAlnumC c3
            && isAlnumC c4 && isAlnumC c5 then
          some (c :: cs.takeWhile isAliasCont, [c1, c2, c3, c4, c5], stripComma r3)
        else none
      | _ => none
    else none

/-- `std::regex_search` with `regex_alias_registry`: leftmost match. -/
def searchEntry : List Char → Option (List Char × List Char × List Char)
  | [] => none
  | c :: cs =>
    match matchEntryAt (c :: cs) with
    | some r => some r
    | none => searchEntry cs

/-- The `regex_search` loop of `ListAlias` (and the parse phase of `Load`):
collect all `alias=sernum` entries in stored order.  The loop is embedded with
explicit fuel; each iteration strictly shortens the string, so fuel
`length + 1` always suffices (see `scanLoop_serialize`). -/
def scanLoop : Nat → List Char → List (String × String)
  | 0, _ => []
  | fuel + 1, l =>
    match searchEntry l with
    | none => []
    | some (a, sn, rest) => (⟨a⟩, ⟨sn⟩) :: scanLoop fuel rest

/-- The list of entries held in a stored alias-list string. -/
def scanEntries (s : String) : List (String × String) :=
  scanLoop (s.data.length + 1) s.data

/-- The `regex_search` loop of `GetAliasSernum`: first entry whose alias
capture equals the (already upper-cased) token, returning its sernum. -/
def getAliasLoopA (t : List Char) : Nat → List Char → Option (List Char)
  | 0, _ => none
  | fuel + 1, l =>
    match searchEntry l with
    | none => none
    | some (a, sn, rest) => if t = a then some sn else getAliasLoopA t fuel rest

/-- The `regex_search` loop of `RemoveAlias`: rebuild the stored string
without the entries whose alias matches `t`, and report whether any matched. -/
def removeLoopA (t : List Char) : Nat → List Char → List Char → Bool → List Char × Bool
  | 0, _, acc, found => (acc, found)
  | fuel + 1, l, acc, found =>
    match searchEntry l with
    | none => (acc, found)
    | some (a, sn, rest) =>
      if t = a then removeLoopA t fuel rest acc true
      else removeLoopA t fuel rest ((if acc = [] then [] else acc ++ [',']) ++ a ++ '=' :: sn) found

/-! ## The registry state and the alias operations -/

/-- The registry as seen by the program: the one string value
`HKCU\SOFTWARE\WWES\Relay\Aliases` (`none` = value absent), plus the log of
values passed to `WriteRegSZ` on that value. -/
structure RegState where
  val : Option String
  writes : List String
deriving DecidableEq

/-- `ReadRegSZ(REG_KEY_RELAY_ALIAS, REG_SETTING_ALIASES, out, "")`: returns the
stored value; if the value is absent it is created with the empty-string
default (EasyRegistry.cpp, `ReadRegSZ` with non-NULL default).  The lower-level
store is modelled as functioning, so the read succeeds. -/
def readAliases (st : RegState) : String × RegState :=
  match st.val with
  | some s => (s, st)
  | none => ("", { st with val := some "" })

/-- `RemoveAlias` (Relay.cpp lines 836-872). -/
def RemoveAlias (aliasArg : String) (st : RegState) : RegState :=
  let a := upperStr aliasArg
  let p := readAliases st
  let r := removeLoopA a.data (p.1.data.length + 1) p.1.data [] false
  if r.2 then { val := some ⟨r.1⟩, writes := p.2.writes ++ [⟨r.1⟩] }
  else p.2

/-- `AssignAlias` (Relay.cpp lines 812-826): upper-case both, remove any
existing binding, then prepend `ALIAS=SERNUM` (comma-separated) and write. -/
def AssignAlias (aliasArg sernum : String) (st : RegState) : RegState :=
  let a := upperStr aliasArg
  let sn := upperStr sernum
  let st1 := RemoveAlias a st
  let p := readAliases st1
  let s' : String := ⟨a.data ++ '=' :: sn.data ++ (if p.1.data = [] then [] else [',']) ++ p.1.data⟩
  { val := some s', writes := p.2.writes ++ [s'] }

/-- `^(T_SERNUM)$` (icase), the `regex_sernum` full match. -/
def validSernum (s : String) : Bool :=
  s.data.length == 5 && s.data.all isAlnumC

/-- `GetAliasSernum` (Relay.cpp lines 921-959): upper-case the token, scan the
stored list for an alias match; otherwise fall back to validating the token as
a literal serial number, else return the empty string. -/
def GetAliasSernum (tok : String) (st : RegState) : String × RegState :=
  let t := upperStr tok
  let p := readAliases st
  match getAliasLoopA t.data (p.1.data.length + 1) p.1.data with
  | some sn => (⟨sn⟩, p.2)
  | none => (if validSernum t then t else "", p.2)

/-- `ListAlias` (Relay.cpp lines 882-909): the lines printed (one
`ALIAS=SERNUM` per entry, or the "No aliases defined" message) and the state
after the read. -/
def listAliasOutput (st : RegState) : List String × RegState :=
  let p := readAliases st
  let es := scanEntries p.1
  (if es.isEmpty then ["No aliases defined"] else es.map (fun e => e.1 ++ "=" ++ e.2), p.2)

/-- The entries currently persisted in a registry state. -/
def entriesOfState (st : RegState) : List (String × String) :=
  scanEntries (st.val.getD "")

/-! ## Serialized form of an alias list -/

/-- The serialized bytes of one entry, `ALIAS=SERNUM`. -/
def entryC (e : String × String) : List Char := e.1.data ++ '=' :: e.2.data

/-- The stored-string format `ALIAS=SERNUM[,ALIAS=SERNUM]*` (spec section 6);
this is exactly the string shape built by `AssignAlias` and `RemoveAlias`. -/
def serializeChars : List (String × String) → List Char
  | [] => []
  | e :: es =>
    entryC e ++ (match es with | [] => [] | _ :: _ => ',' :: serializeChars es)

/-- The stored string for an alias list (the spec's `Save` format). -/
def serializeEntries (L : List (String × String)) : String := ⟨serializeChars L⟩

/-- A capture-exact alias token: the full-match shape of `T_ALIAS_NAME`. -/
def validAliasC : List Char → Bool
  | [] => false
  | c :: cs => isAliasStart c && cs.all isAliasCont

/-- `^(T_ALIAS_NAME)$` (icase), the `regex_alias_name` full match. -/
def validAlias (s : String) : Bool := validAliasC s.data

/-- Shape of a valid sernum capture. -/
def validSernumC (l : List Char) : Bool := l.length == 5 && l.all isAlnumC

/-- A well-formed entry: alias and sernum captures have the shapes the
registry format guarantees. -/
def validEntry (e : String × String) : Bool := validAliasC e.1.data && validSernumC e.2.data

/-- A well-formed alias list. -/
def validList (L : List (String × String)) : Bool := L.all validEntry

/-! ## Characterizations used by the proofs -/

/-- Lookup of the first entry with the given alias key (key given as raw
characters, already normalized the way the code compares them). -/
def lookupKey (t : List Char) : List (String × String) → Option String
  | [] => none
  | e :: es => if t = e.1.data then some e.2 else lookupKey t es

/-- All entries except those bound to the given alias key. -/
def removeKey (t : List Char) : List (String × String) → List (String × String)
  | [] => []
  | e :: es => if t = e.1.data then removeKey t es else e :: removeKey t es

/-- Whether some entry is bound to the given alias key. -/
def hasKey (t : List Char) : List (String × String) → Bool
  | [] => false
  | e :: es => if t = e.1.data then true else hasKey t es

/-- The comma-joining step of `RemoveAlias`'s rebuild accumulator. -/
def accJoin (x y : List Char) : List Char :=
  if x = [] then y else if y = [] then x else x ++ ',' :: y

/-! ## Command-line layer: error codes, token parsers -/

/-- `ERROR_CODES` (Relay.cpp line 51). -/
inductive ErrC where
  | noErr
  | synError
  | noDevices
  | badSernum
  | noDriverInit
  | invalidChannel
deriving DecidableEq

/-- The integer value of each error code, `int(error)` returned from `main`. -/
def errInt : ErrC → Int
  | .noErr => 0
  | .synError => -1
  | .noDevices => -2
  | .badSernum => -3
  | .noDriverInit => -4
  | .invalidChannel => -5

/-- `^\+?(T_ALIAS_NAME)[=:](T_SERNUM)$` (`regex_alias_assign`): greedy alias
run, then the separator (not an alias character), then exactly five
alphanumerics to the end.  An initial `+` is consumed when present: `+`
cannot start an alias, so no other reading exists. -/
def parseAliasAssign (s : String) : Option (String × String) :=
  let l := match s.data with | '+' :: t => t | t => t
  match l with
  | [] => none
  | c :: cs =>
    if isAliasStart c then
      match cs.dropWhile isAliasCont with
      | sep :: rest =>
        if (sep == '=' || sep == ':') && rest.length == 5 && rest.all isAlnumC then
          some (⟨c :: cs.takeWhile isAliasCont⟩, ⟨rest⟩)
        else none
      | [] => none
    else none

/-- `^-(T_ALIAS_NAME)$` (`regex_alias_remove`). -/
def parseAliasRemove (s : String) : Option String :=
  match s.data with
  | '-' :: c :: cs =>
    if isAliasStart c && cs.all isAliasCont then some ⟨c :: cs⟩ else none
  | _ => none

/-- `^(T_ALIAS_NAME)$` (`regex_alias_name`), full-token alias (or serial
number) match. -/
def parseAliasName (s : String) : Option String :=
  match s.data with
  | [] => none
  | c :: cs => if isAliasStart c && cs.all isAliasCont then some s else none

/-- `^(T_ALIAS_NAME):(T_LOGIC_BITS{1,8})$` (`regex_sernum_pattern`): the `:`
separator is not an alias character, so the split point is determined. -/
def parseSernumPattern (s : String) : Option (String × String) :=
  match s.data with
  | [] => none
  | c :: cs =>
    if isAliasStart c then
      match cs.dropWhile isAliasCont with
      | sep :: tail =>
        if sep == ':' && !tail.isEmpty && tail.length ≤ 8 && tail.all isBitChar then
          some (⟨c :: cs.takeWhile isAliasCont⟩, ⟨tail⟩)
        else none
      | [] => none
    else none

/-- `^(T_CHANNELS)=(T_LOGICS)$` (`regex_ch_set`). -/
def isLogicWord (s : String) : Bool :=
  let u := upperStr s
  u == "ON" || u == "1" || u == "H" || u == "NO" ||
  u == "OFF" || u == "0" || u == "L" || u == "NC"

def parseChSet (s : String) : Option (Char × String) :=
  match s.data with
  | c :: sep :: rest =>
    if sep == '=' && decide ('1' ≤ c ∧ c ≤ '8') && isLogicWord ⟨rest⟩ then
      some (c, ⟨rest⟩)
    else none
  | _ => none

/-- The channel-list constraint of `regex_query_chlist`: 1 to 8 characters,
each in `[1-8]`, reaching the end of the token. -/
def chsOK (l : List Char) : Bool :=
  !l.isEmpty && l.length ≤ 8 && l.all (fun c => decide ('1' ≤ c ∧ c ≤ '8'))

/-- Backtracking of the greedy alias run in
`^(T_ALIAS_NAME)[@:](T_CHANNELS{1,8})$` (`regex_query_chlist`).  `@` is
itself an alias character, so the engine tries the longest alias first and
backtracks one character at a time until the separator and channel list
match. -/
def tryChlistK (c0 : Char) (rest : List Char) : Nat → Option (String × String)
  | 0 =>
    match rest with
    | sep :: tail =>
      if (sep == '@' || sep == ':') && chsOK tail then some (⟨[c0]⟩, ⟨tail⟩) else none
    | [] => none
  | k + 1 =>
    match rest.drop (k + 1) with
    | sep :: tail =>
      if (sep == '@' || sep == ':') && chsOK tail then
        some (⟨c0 :: rest.take (k + 1)⟩, ⟨tail⟩)
      else tryChlistK c0 rest k
    | [] => tryChlistK c0 rest k

def parseQueryChlist (s : String) : Option (String × String) :=
  match s.data with
  | [] => none
  | c :: cs =>
    if isAliasStart c then tryChlistK c cs (cs.takeWhile isAliasCont).length else none

/-! ## The enumerated device list -/

/-- `Is_Sernum_Present` (Relay.cpp lines 755-772). -/
def isSernumPresent (sn : String) (chans : List (String × Nat)) : Bool :=
  !(sn.data.isEmpty) && chans.any (fun s => s.1 == sn)

/-- `Relays_Get_NumChannels` (Relay.cpp lines 784-801). -/
def numChannels (sn : String) (chans : List (String × Nat)) : Nat :=
  if sn.data.isEmpty then 0
  else ((chans.find? (fun s => s.1 == sn)).map (fun s => s.2)).getD 0

/-! ## The ALIAS command (main, Relay.cpp lines 148-181) -/

/-- One argument of the alias loop: `regex_alias_assign` first, then
`regex_alias_remove`; an unmatched token is left untouched (the loop stops
with a syntax error there). -/
def applyTok (st : RegState) (a : String) : RegState :=
  match parseAliasAssign a with
  | some p => AssignAlias p.1 p.2 st
  | none =>
    match parseAliasRemove a with
    | some al => RemoveAlias al st
    | none => st

/-- The alias argument loop; the arguments are supplied in processing order
(`main` iterates the command line right to left).  Returns the state after
the processed prefix and whether every token parsed. -/
def aliasLoop : List String → RegState → RegState × Bool
  | [], st => (st, true)
  | a :: rest, st =>
    match parseAliasAssign a with
    | some p => aliasLoop rest (AssignAlias p.1 p.2 st)
    | none =>
      match parseAliasRemove a with
      | some al => aliasLoop rest (RemoveAlias al st)
      | none => (st, false)

/-- The `alias` command end to end: exit code, printed lines, final registry
state.  `chans` is the enumeration result of `Relays_Get_Sernums`, which must
be non-empty for the command to proceed (otherwise `NO_DEVICES`); `args` are
the command-line tokens after `alias` in their command-line order. -/
def mainAlias (chans : List (String × Nat)) (args : List String) (st : RegState) :
    Int × List String × RegState :=
  if chans.isEmpty then (errInt .noDevices, [], st)
  else if args.isEmpty then
    let p := listAliasOutput st
    (0, p.1, p.2)
  else
    let r := aliasLoop args.reverse st
    if r.2 then
      let p := listAliasOutput r.1
      (0, p.1, p.2)
    else (errInt .synError, [], r.1)

/-! ## The QUERY command (main, Relay.cpp lines 260-317; Relays_Query,
lines 578-669) -/

/-- The query argument loop: `regex_query_chlist` first, else
`regex_alias_name`, else syntax error; a resolved serial number must be
present, and a channel list must be no longer than the module's channel
count. -/
def queryLoop (chans : List (String × Nat)) :
    List String → RegState → List (String × String) →
    List (String × String) × RegState × ErrC
  | [], st, acc => (acc, st, .noErr)
  | a :: rest, st, acc =>
    match parseQueryChlist a with
    | some p =>
      let r := GetAliasSernum p.1 st
      let n := numChannels r.1 chans
      if isSernumPresent r.1 chans then
        if p.2.data.length ≤ n then queryLoop chans rest r.2 (acc ++ [(r.1, p.2)])
        else (acc, r.2, .invalidChannel)
      else (acc, r.2, .badSernum)
    | none =>
      match parseAliasName a with
      | some t =>
        let r := GetAliasSernum t st
        if isSernumPresent r.1 chans then queryLoop chans rest r.2 (acc ++ [(r.1, "")])
        else (acc, r.2, .badSernum)
      | none => (acc, st, .synError)

/-- The default channel list `"12...n"` built when a query has no explicit
channels (`'0' + i` for `i = 1..n`; the driver reports at most 8 channels). -/
def defaultQ (nch : Nat) : List Char :=
  (List.range nch).map (fun i => "123456789".data.getD i '?')

/-- The per-channel output of `Relays_Query`: one bit per requested channel
in the requested order; channels beyond the module's count are silently
skipped. -/
def queryBits (stat : Nat) (nch : Nat) (q : List Char) : List Char :=
  q.flatMap (fun c =>
    if decide ('1' ≤ c ∧ c ≤ '8') then
      if c.toNat - 48 ≤ nch then [if Nat.testBit stat (c.toNat - 48 - 1) then '1' else '0']
      else []
    else [])

/-- `Relays_Query` over the device environment (serial number, channel count,
status bitmask); driver initialisation and device opening are modelled as
succeeding.  Returns the per-module output strings and the error state. -/
def relaysQueryRun (env : List (String × Nat × Nat)) (qs : List (String × String)) :
    List String × ErrC :=
  qs.foldl
    (fun acc Q =>
      if Q.1.data.isEmpty then acc
      else
        let nch := ((env.find? (fun d => d.1 == Q.1)).map (fun d => d.2.1)).getD 0
        if nch < 1 then (acc.1, .badSernum)
        else
          let stat := ((env.find? (fun d => d.1 == Q.1)).map (fun d => d.2.2)).getD 0
          let q := if Q.2.data.isEmpty then defaultQ nch else Q.2.data
          (acc.1 ++ [⟨queryBits stat nch q⟩], acc.2))
    ([], .noErr)

/-- The `query` command end to end over a device environment. -/
def mainQuery (env : List (String × Nat × Nat)) (args : List String) (st : RegState) :
    Int × List String × RegState :=
  let chans := env.map (fun d => (d.1, d.2.1))
  if chans.isEmpty then (errInt .noDevices, [], st)
  else
    let r := queryLoop chans args st []
    if r.2.2 = ErrC.noErr then
      let q := relaysQueryRun env r.1
      (errInt q.2, q.1, r.2.1)
    else (errInt r.2.2, [], r.2.1)

/-! ## The SET command (main, Relay.cpp lines 183-259; Relays_Set,
lines 433-503) -/

/-- `LOGIC` (Relay.cpp line 34). -/
inductive LOGIC where
  | H
  | L
  | X
deriving DecidableEq

/-- `get_state(char)` (Relay.cpp lines 733-744): a single character matches
`regex_on_vals` only as `1`, `H` or `h`, and `regex_off_vals` only as `0`,
`L` or `l`; anything else is `X`. -/
def getStateChar (c : Char) : LOGIC :=
  if c == '1' || c == 'H' || c == 'h' then .H
  else if c == '0' || c == 'L' || c == 'l' then .L
  else .X

/-- `get_state(string)` (Relay.cpp lines 715-723) for the `CH=STATE` form. -/
def getStateStr (s : String) : LOGIC :=
  let u := upperStr s
  if u == "ON" || u == "1" || u == "H" || u == "NO" then .H
  else if u == "OFF" || u == "0" || u == "L" || u == "NC" then .L
  else .X

/-- The channel-key character `'1' + j` used when filling a pattern
(Relay.cpp line 214); patterns have at most 8 characters, so `j < 8`. -/
def chanChar (j : Nat) : Char := "12345678".data.getD j '?'

/-- A `MODULE` (`std::map<char, LOGIC>`): an association list kept sorted by
key, as `std::map` iterates in key order. -/
def mapInsertC (k : Char) (v : LOGIC) : List (Char × LOGIC) → List (Char × LOGIC)
  | [] => [(k, v)]
  | e :: rest =>
    if k < e.1 then (k, v) :: e :: rest
    else if k = e.1 then (k, v) :: rest
    else e :: mapInsertC k v rest

/-- A `MODULE_SET` (`std::map<string, MODULE>`): sorted by serial number. -/
def mapInsertS (k : String) (v : List (Char × LOGIC)) :
    List (String × List (Char × LOGIC)) → List (String × List (Char × LOGIC))
  | [] => [(k, v)]
  | e :: rest =>
    if k < e.1 then (k, v) :: e :: rest
    else if k = e.1 then (k, v) :: rest
    else e :: mapInsertS k v rest

/-- `module[cur_sn][ch] = v` on a map already containing `cur_sn`. -/
def setModuleCh (k : String) (ch : Char) (v : LOGIC) :
    List (String × List (Char × LOGIC)) → List (String × List (Char × LOGIC)) :=
  List.map (fun e => if e.1 = k then (e.1, mapInsertC ch v e.2) else e)

/-- The pattern-filling loop `for j: module[cur_sn]['1'+j] = get_state(pattern[j])`
(Relay.cpp lines 213-214). -/
def buildPatternAux : List Char → Nat → List (Char × LOGIC) → List (Char × LOGIC)
  | [], _, m => m
  | c :: cs, j, m => buildPatternAux cs (j + 1) (mapInsertC (chanChar j) (getStateChar c) m)

/-- The `MODULE` built for a fresh serial number from a pattern string. -/
def buildPattern (pat : List Char) : List (Char × LOGIC) := buildPatternAux pat 0 []

/-- The set-argument loop (Relay.cpp lines 190-255): a bare alias/serial
token switches the current module; `SN:PATTERN` fills a whole module;
`CH=STATE` updates one channel of the current module and is a syntax error
when no module has been named yet. -/
def setLoop (chans : List (String × Nat)) :
    List String → RegState → String → List (String × List (Char × LOGIC)) →
    List (String × List (Char × LOGIC)) × RegState × ErrC
  | [], st, _, mods => (mods, st, .noErr)
  | a :: rest, st, curSn, mods =>
    match parseAliasName a with
    | some t =>
      let r := GetAliasSernum t st
      if isSernumPresent r.1 chans then setLoop chans rest r.2 r.1 mods
      else (mods, r.2, .badSernum)
    | none =>
      match parseSernumPattern a with
      | some p =>
        let r := GetAliasSernum p.1 st
        if isSernumPresent r.1 chans then
          let n := numChannels r.1 chans
          if p.2.data.length ≤ n then
            setLoop chans rest r.2 r.1 (mapInsertS r.1 (buildPattern p.2.data) mods)
          else (mods, r.2, .invalidChannel)
        else (mods, r.2, .badSernum)
      | none =>
        match parseChSet a with
        | some q =>
          if curSn.data.isEmpty then (mods, st, .synError)
          else
            let n := numChannels curSn chans
            let mods1 := if (mods.find? (fun e => e.1 == curSn)).isSome then mods
                         else mapInsertS curSn [] mods
            if q.1.toNat - 48 ≤ n then
              setLoop chans rest st curSn (setModuleCh curSn q.1 (getStateStr q.2) mods1)
            else (mods1, st, .invalidChannel)
        | none => (mods, st, .synError)

/-- A call across the device boundary made by `Relays_Set`
(`usb_relay_device_open/close_one_relay_channel` and the all-channel
variants); `setCh` is the H/closed/on state, `clearCh` the L/open/off
state. -/
inductive DevCall where
  | openAll : String → DevCall
  | closeAll : String → DevCall
  | setCh : String → Nat → DevCall
  | clearCh : String → Nat → DevCall
deriving DecidableEq

/-- The device calls `Relays_Set` makes for one module: `X` (don't-care)
channels make no call at all; the channel key `'0'` would address all
channels; otherwise the channel index is `ch - '1' + 1`. -/
def moduleCalls (sn : String) (m : List (Char × LOGIC)) : List DevCall :=
  m.flatMap (fun p =>
    if p.1 = '0' then
      match p.2 with
      | .H => [.openAll sn]
      | .L => [.closeAll sn]
      | .X => []
    else
      match p.2 with
      | .H => [.setCh sn (p.1.toNat - 49 + 1)]
      | .L => [.clearCh sn (p.1.toNat - 49 + 1)]
      | .X => [])

/-- `Relays_Set` over the module set (driver initialisation and device
opening modelled as succeeding): an empty serial-number key falls back to the
first enumerated module, and the stored keys are re-upper-cased into the
5-character device buffer. -/
def relaysSetCalls (chans : List (String × Nat)) (mods : List (String × List (Char × LOGIC))) :
    List DevCall :=
  mods.flatMap (fun e =>
    moduleCalls (if e.1.data.isEmpty then ((chans.head?.map (fun d => d.1)).getD "")
                 else upperStr e.1) e.2)

/-- The `set` command end to end over a device environment: exit code, device
calls made, final registry state.  `set` with no further arguments is a
syntax error (`num_args > 1` gate in `main`). -/
def mainSet (env : List (String × Nat × Nat)) (args : List String) (st : RegState) :
    Int × List DevCall × RegState :=
  let chans := env.map (fun d => (d.1, d.2.1))
  if chans.isEmpty then (errInt .noDevices, [], st)
  else if args.isEmpty then (errInt .synError, [], st)
  else
    let r := setLoop chans args st "" []
    if r.2.2 = ErrC.noErr then (0, relaysSetCalls chans r.1, r.2.1)
    else (errInt r.2.2, [], r.2.1)

/-- Modelled from the spec: the claim's mapping of pattern characters, in
order, to channels `1..len(P)` — `0`/`L` clear the channel, `1`/`H` set it,
`X`/`_`/`.` are don't-care and produce no call at the device boundary. -/
def specStateCall (sn : String) (i : Nat) (c : Char) : List DevCall :=
  if c = '0' ∨ c = 'L' then [.clearCh sn i]
  else if c = '1' ∨ c = 'H' then [.setCh sn i]
  else []

/-- Modelled from the spec: the full device-call sequence the claim assigns
to a pattern. -/
def specPatternCallsAux (sn : String) : Nat → List Char → List DevCall
  | _, [] => []
  | i, c :: cs => specStateCall sn i c ++ specPatternCallsAux sn (i + 1) cs

def specPatternCalls (sn : String) (pat : List Char) : List DevCall :=
  specPatternCallsAux sn 1 pat

/-! ## Claim C5 -/

/-- The channel/state entries a pattern produces, channel keys `'1' + j` in
order. -/
def patEntries : Nat → List Char → List (Char × LOGIC)
  | _, [] => []
  | j, c :: cs => (chanChar j, getStateChar c) :: patEntries (j + 1) cs

theorem upChar_of_find?_none {c : Char}
    (h : upPairs.find? (fun p => p.1 == c) = none) : upChar c = c := by
  simp [upChar, h]

theorem upChar_of_find?_some {c : Char} {q : Char × Char}
    (h : upPairs.find? (fun p => p.1 == c) = some q) : upChar c = q.2 := by
  simp [upChar, h]

theorem upChar_upper_fix {q : Char × Char} (hq : q ∈ upPairs) :
    upChar q.2 = q.2 := by
  apply upChar_of_find?_none
  rw [List.find?_eq_none]
  intro r hr
  have hfact : ∀ q ∈ upPairs, ∀ r ∈ upPairs, ¬ (r.1 == q.2) = true := by decide
  exact hfact q hq r hr

theorem upChar_idem (c : Char) : upChar (upChar c) = upChar c := by
  cases h : upPairs.find? (fun p => p.1 == c) with
  | none => rw [upChar_of_find?_none h, upChar_of_find?_none h]
  | some q =>
    rw [upChar_of_find?_some h]
    exact upChar_upper_fix (List.mem_of_find?_eq_some h)

theorem upperStr_idem (s : String) : upperStr (upperStr s) = upperStr s := by
  have hf : upChar ∘ upChar = upChar := funext upChar_idem
  simp [upperStr, List.map_map, hf]

theorem upChar_alnum {c : Char} (h : isAlnumC c = true) : isAlnumC (upChar c) = true := by
  cases hf : upPairs.find? (fun p => p.1 == c) with
  | none => rw [upChar_of_find?_none hf]; exact h
  | some q =>
    rw [upChar_of_find?_some hf]
    have hq := List.mem_of_find?_eq_some hf
    have hfact : ∀ q ∈ upPairs, isAlnumC q.2 = true := by decide
    exact hfact q hq

theorem upChar_aliasStart {c : Char} (h : isAliasStart c = true) :
    isAliasStart (upChar c) = true := by
  cases hf : upPairs.find? (fun p => p.1 == c) with
  | none => rw [upChar_of_find?_none hf]; exact h
  | some q =>
    rw [upChar_of_find?_some hf]
    have hq := List.mem_of_find?_eq_some hf
    have hfact : ∀ q ∈ upPairs, isAliasStart q.2 = true := by decide
    exact hfact q hq

theorem upChar_aliasCont {c : Char} (h : isAliasCont c = true) :
    isAliasCont (upChar c) = true := by
  cases hf : upPairs.find? (fun p => p.1 == c) with
  | none => rw [upChar_of_find?_none hf]; exact h
  | some q =>
    rw [upChar_of_find?_some hf]
    have hq := List.mem_of_find?_eq_some hf
    have hfact : ∀ q ∈ upPairs, isAliasCont q.2 = true := by decide
    exact hfact q hq

/-! ## Lemmas: the registry scan inverts the stored format -/

theorem stringMk_data (s : String) : (⟨s.data⟩ : String) = s := by
  cases s
  rfl

theorem takeWhile_middle (p : Char → Bool) (l : List Char) (y : Char) (r : List Char)
    (h1 : ∀ c ∈ l, p c = true) (h2 : p y = false) :
    (l ++ y :: r).takeWhile p = l ∧ (l ++ y :: r).dropWhile p = y :: r := by
  induction l with
  | nil => simp [List.takeWhile_cons, List.dropWhile_cons, h2]
  | cons a t ih =>
    have ha : p a = true := h1 a (by simp)
    have iht := ih (fun c hc => h1 c (by simp [hc]))
    simp [List.takeWhile_cons, List.dropWhile_cons, ha, iht.1, iht.2]

theorem length_eq_five {l : List Char} (h : l.length = 5) :
    ∃ c1 c2 c3 c4 c5, l = [c1, c2, c3, c4, c5] := by
  obtain ⟨c1, l1, rfl⟩ := List.exists_of_length_succ l h
  simp only [List.length_cons, Nat.succ_inj] at h
  obtain ⟨c2, l2, rfl⟩ := List.exists_of_length_succ l1 h
  simp only [List.length_cons, Nat.succ_inj] at h
  obtain ⟨c3, l3, rfl⟩ := List.exists_of_length_succ l2 h
  simp only [List.length_cons, Nat.succ_inj] at h
  obtain ⟨c4, l4, rfl⟩ := List.exists_of_length_succ l3 h
  simp only [List.length_cons, Nat.succ_inj] at h
  obtain ⟨c5, l5, rfl⟩ := List.exists_of_length_succ l4 h
  simp only [List.length_cons, Nat.succ_inj, List.length_eq_zero] at h
  exact ⟨c1, c2, c3, c4, c5, by rw [h]⟩

theorem matchEntryAt_entry {a sn : List Char} (tail : List Char)
    (ha : validAliasC a = true) (hsn : validSernumC sn = true) :
    matchEntryAt (a ++ '=' :: (sn ++ tail)) = some (a, sn, stripComma tail) := by
  cases a with
  | nil => simp [validAliasC] at ha
  | cons c cs =>
    simp only [validAliasC, Bool.and_eq_true, List.all_eq_true] at ha
    obtain ⟨hc, hcs⟩ := ha
    have hmid := takeWhile_middle isAliasCont cs '=' (sn ++ tail) hcs (by decide)
    simp only [validSernumC, Bool.and_eq_true, beq_iff_eq, List.all_eq_true] at hsn
    obtain ⟨hlen, halnum⟩ := hsn
    obtain ⟨c1, c2, c3, c4, c5, rfl⟩ := length_eq_five hlen
    have h1 := halnum c1 (by simp)
    have h2 := halnum c2 (by simp)
    have h3 := halnum c3 (by simp)
    have h4 := halnum c4 (by simp)
    have h5 := halnum c5 (by simp)
    have htw : List.takeWhile isAliasCont (cs ++ '=' :: c1 :: c2 :: c3 :: c4 :: c5 :: tail) = cs := by
      simpa using hmid.1
    have hdw : List.dropWhile isAliasCont (cs ++ '=' :: c1 :: c2 :: c3 :: c4 :: c5 :: tail)
        = '=' :: c1 :: c2 :: c3 :: c4 :: c5 :: tail := by
      simpa using hmid.2
    simp [matchEntryAt, List.cons_append, hc, htw, hdw, h1, h2, h3, h4, h5]

theorem searchEntry_of_matchEntryAt {l : List Char}
    {r : List Char × List Char × List Char} (h : matchEntryAt l = some r) :
    searchEntry l = some r := by
  cases l with
  | nil => simp [matchEntryAt] at h
  | cons c cs => simp [searchEntry, h]

theorem entryC_ne_nil (e : String × String) : entryC e ≠ [] := by
  simp [entryC]

theorem serializeChars_cons_ne_nil (e : String × String) (es : List (String × String)) :
    serializeChars (e :: es) ≠ [] := by
  simp only [serializeChars]
  intro h
  exact entryC_ne_nil e (List.append_eq_nil.mp h).1

theorem serializeChars_eq_nil_iff (L : List (String × String)) :
    serializeChars L = [] ↔ L = [] := by
  cases L with
  | nil => simp [serializeChars]
  | cons e es => simp [serializeChars_cons_ne_nil]

theorem searchEntry_serialize {e : String × String} (es : List (String × String))
    (he : validEntry e = true) :
    searchEntry (serializeChars (e :: es)) = some (e.1.data, e.2.data, serializeChars es) := by
  simp only [validEntry, Bool.and_eq_true] at he
  apply searchEntry_of_matchEntryAt
  cases es with
  | nil =>
    have hm := matchEntryAt_entry ([] : List Char) he.1 he.2
    have hshape : serializeChars [e] = e.1.data ++ '=' :: (e.2.data ++ []) := by
      simp [serializeChars, entryC]
    rw [hshape, hm]
    rfl
  | cons m ms =>
    have hm := matchEntryAt_entry (',' :: serializeChars (m :: ms)) he.1 he.2
    have hshape : serializeChars (e :: m :: ms)
        = e.1.data ++ '=' :: (e.2.data ++ (',' :: serializeChars (m :: ms))) := by
      simp [serializeChars, entryC, List.append_assoc]
    rw [hshape, hm]
    rfl

theorem validAliasC_ne_nil {a : List Char} (h : validAliasC a = true) : a ≠ [] := by
  cases a with
  | nil => simp [validAliasC] at h
  | cons c cs => simp

theorem serialize_length_step {e : String × String} (es : List (String × String))
    (he : validEntry e = true) :
    (serializeChars es).length + 7 ≤ (serializeChars (e :: es)).length := by
  simp only [validEntry, Bool.and_eq_true] at he
  have ha : 1 ≤ e.1.data.length := by
    cases hx : e.1.data with
    | nil => rw [hx] at he; simp [validAliasC] at he
    | cons c cs => simp
  have hsn : e.2.data.length = 5 := by
    have := he.2
    simp only [validSernumC, Bool.and_eq_true, beq_iff_eq] at this
    exact this.1
  cases es with
  | nil =>
    have h2 : serializeChars [e] = entryC e := by simp [serializeChars]
    rw [show serializeChars ([] : List (String × String)) = [] from rfl, h2]
    simp only [List.length_nil, entryC, List.length_append, List.length_cons, hsn]
    omega
  | cons m ms =>
    have h2 : serializeChars (e :: m :: ms) = entryC e ++ ',' :: serializeChars (m :: ms) := by
      simp [serializeChars]
    rw [h2]
    simp only [entryC, List.length_append, List.length_cons, hsn]
    omega

theorem scanLoop_serialize : ∀ fuel (L : List (String × String)), validList L = true →
    (serializeChars L).length < fuel → scanLoop fuel (serializeChars L) = L := by
  intro fuel
  induction fuel with
  | zero => intro L _ h; omega
  | succ f ih =>
    intro L hv hlen
    cases L with
    | nil => simp [serializeChars, scanLoop, searchEntry]
    | cons e es =>
      simp only [validList, List.all_cons, Bool.and_eq_true] at hv
      have hs := searchEntry_serialize es hv.1
      have hstep := serialize_length_step es hv.1
      have hrec : scanLoop f (serializeChars es) = es :=
        ih es (by simp [validList, hv.2]) (by omega)
      simp [scanLoop, hs, hrec, stringMk_data]

theorem scanEntries_serialize {L : List (String × String)} (hv : validList L = true) :
    scanEntries (serializeEntries L) = L := by
  unfold scanEntries serializeEntries
  exact scanLoop_serialize _ L hv (by simp)

theorem getAliasLoop_serialize (t : List Char) :
    ∀ fuel (L : List (String × String)), validList L = true →
    (serializeChars L).length < fuel →
    getAliasLoopA t fuel (serializeChars L) = (lookupKey t L).map String.data := by
  intro fuel
  induction fuel with
  | zero => intro L _ h; omega
  | succ f ih =>
    intro L hv hlen
    cases L with
    | nil => simp [serializeChars, getAliasLoopA, searchEntry, lookupKey]
    | cons e es =>
      simp only [validList, List.all_cons, Bool.and_eq_true] at hv
      have hs := searchEntry_serialize es hv.1
      have hstep := serialize_length_step es hv.1
      have hrec := ih es (by simp [validList, hv.2]) (by omega)
      by_cases ht : t = e.1.data
      · simp [getAliasLoopA, hs, lookupKey, ht]
      · simp [getAliasLoopA, hs, lookupKey, ht, hrec]

theorem accJoin_nil_left (y : List Char) : accJoin [] y = y := by
  simp [accJoin]

theorem accJoin_nil_right (x : List Char) : accJoin x [] = x := by
  by_cases h : x = [] <;> simp [accJoin, h]

theorem accJoin_entry (acc : List Char) (e : String × String) (M : List (String × String)) :
    accJoin (accJoin acc (entryC e)) (serializeChars M) = accJoin acc (serializeChars (e :: M)) := by
  cases M with
  | nil =>
    simp only [serializeChars]
    rw [accJoin_nil_right]
    simp [accJoin_nil_right]
  | cons m ms =>
    have hE := entryC_ne_nil e
    have hS := serializeChars_cons_ne_nil m ms
    have hshape : serializeChars (e :: m :: ms) = entryC e ++ ',' :: serializeChars (m :: ms) := by
      simp [serializeChars]
    by_cases hacc : acc = []
    · subst hacc
      rw [accJoin_nil_left, accJoin_nil_left, hshape]
      simp [accJoin, hE, hS]
    · rw [hshape]
      have h1 : accJoin acc (entryC e) = acc ++ ',' :: entryC e := by simp [accJoin, hacc, hE]
      have h2 : acc ++ ',' :: entryC e ≠ [] := by simp
      have h3 : entryC e ++ ',' :: serializeChars (m :: ms) ≠ [] := by simp [hE]
      rw [h1]
      simp [accJoin, h2, hS, hacc, h3, List.append_assoc]

theorem removeLoop_serialize (t : List Char) :
    ∀ fuel (L : List (String × String)) (acc : List Char) (found : Bool),
    validList L = true → (serializeChars L).length < fuel →
    removeLoopA t fuel (serializeChars L) acc found =
      (accJoin acc (serializeChars (removeKey t L)), found || hasKey t L) := by
  intro fuel
  induction fuel with
  | zero => intro L _ _ _ h; omega
  | succ f ih =>
    intro L acc found hv hlen
    cases L with
    | nil => simp [serializeChars, removeLoopA, searchEntry, removeKey, hasKey, accJoin_nil_right]
    | cons e es =>
      simp only [validList, List.all_cons, Bool.and_eq_true] at hv
      have hs := searchEntry_serialize es hv.1
      have hstep := serialize_length_step es hv.1
      have hvs : validList es = true := by simp [validList, hv.2]
      by_cases ht : t = e.1.data
      · subst ht
        have hrec := ih es acc true hvs (by omega)
        simp [removeLoopA, hs, hrec, removeKey, hasKey]
      · have hacc' : (if acc = [] then [] else acc ++ [',']) ++ e.1.data ++ '=' :: e.2.data
            = accJoin acc (entryC e) := by
          by_cases hacc : acc = []
          · simp [hacc, accJoin_nil_left, entryC]
          · simp [accJoin, hacc, entryC_ne_nil e, entryC, List.append_assoc]
        have hrec := ih es (accJoin acc (entryC e)) found hvs (by omega)
        simp only [removeLoopA, hs, ht, if_neg ht, hacc', hrec, accJoin_entry]
        simp [removeKey, hasKey, ht]

theorem validList_removeKey (t : List Char) {L : List (String × String)}
    (hv : validList L = true) : validList (removeKey t L) = true := by
  induction L with
  | nil => simp [removeKey, validList]
  | cons e es ih =>
    simp only [validList, List.all_cons, Bool.and_eq_true] at hv
    have hes : validList (removeKey t es) = true := ih (by simp [validList, hv.2])
    by_cases ht : t = e.1.data
    · simpa [removeKey, ht] using hes
    · simp only [removeKey, if_neg ht, validList, List.all_cons, Bool.and_eq_true]
      exact ⟨hv.1, by simpa [validList] using hes⟩

theorem hasKey_removeKey (t : List Char) (L : List (String × String)) :
    hasKey t (removeKey t L) = false := by
  induction L with
  | nil => simp [removeKey, hasKey]
  | cons e es ih =>
    by_cases ht : t = e.1.data
    · subst ht
      simpa [removeKey] using ih
    · simp [removeKey, ht, hasKey, ih]

theorem removeKey_of_hasKey_false (t : List Char) {L : List (String × String)}
    (h : hasKey t L = false) : removeKey t L = L := by
  induction L with
  | nil => simp [removeKey]
  | cons e es ih =>
    by_cases ht : t = e.1.data
    · rw [hasKey, if_pos ht] at h
      exact absurd h (by simp)
    · rw [hasKey, if_neg ht] at h
      simp [removeKey, ht, ih h]

/-! ## The registry operations on a serialized store -/

theorem data_serializeEntries (L : List (String × String)) :
    (serializeEntries L).data = serializeChars L := rfl

theorem RemoveAlias_serialized (A : String) (L : List (String × String)) (w : List String)
    (hv : validList L = true) :
    RemoveAlias A ⟨some (serializeEntries L), w⟩ =
      if hasKey (upperStr A).data L then
        ⟨some (serializeEntries (removeKey (upperStr A).data L)),
         w ++ [serializeEntries (removeKey (upperStr A).data L)]⟩
      else ⟨some (serializeEntries L), w⟩ := by
  have hr := removeLoop_serialize (upperStr A).data ((serializeChars L).length + 1)
    L [] false hv (by omega)
  simp only [RemoveAlias, readAliases, data_serializeEntries]
  rw [hr]
  simp only [accJoin_nil_left, Bool.false_or]
  by_cases hk : hasKey (upperStr A).data L = true
  · simp [hk, serializeEntries]
  · simp only [Bool.not_eq_true] at hk
    simp [hk]

theorem GetAliasSernum_serialized (tok : String) (L : List (String × String)) (w : List String)
    (hv : validList L = true) :
    GetAliasSernum tok ⟨some (serializeEntries L), w⟩ =
      ((match lookupKey (upperStr tok).data L with
        | some sn => sn
        | none => if validSernum (upperStr tok) then upperStr tok else ""),
       ⟨some (serializeEntries L), w⟩) := by
  have hg := getAliasLoop_serialize (upperStr tok).data ((serializeChars L).length + 1)
    L hv (by omega)
  simp only [GetAliasSernum, readAliases, data_serializeEntries]
  rw [hg]
  cases hl : lookupKey (upperStr tok).data L with
  | none => simp [hl]
  | some sn => simp [hl, stringMk_data]

/-- The string built by `AssignAlias` from the (removed-from) list is exactly
the serialized form of the list with the new entry prepended. -/
theorem assign_build (A S : String) (M : List (String × String)) :
    (⟨A.data ++ '=' :: S.data ++ (if (serializeEntries M).data = [] then [] else [',']) ++ (serializeEntries M).data⟩ : String)
      = serializeEntries ((A, S) :: M) := by
  have hdata : (serializeEntries M).data = serializeChars M := rfl
  cases M with
  | nil => simp [hdata, serializeEntries, serializeChars, entryC]
  | cons m ms =>
    have hne := serializeChars_cons_ne_nil m ms
    simp [hdata, serializeEntries, serializeChars, entryC, hne, List.append_assoc]

theorem AssignAlias_serialized (A S : String) (L : List (String × String)) (w : List String)
    (hv : validList L = true) :
    ∃ w', AssignAlias A S ⟨some (serializeEntries L), w⟩ =
      ⟨some (serializeEntries ((upperStr A, upperStr S) :: removeKey (upperStr A).data L)), w'⟩ := by
  have hrem := RemoveAlias_serialized (upperStr A) L w hv
  rw [upperStr_idem] at hrem
  simp only [AssignAlias]
  rw [hrem]
  by_cases hk : hasKey (upperStr A).data L = true
  · rw [if_pos hk]
    simp only [readAliases]
    rw [assign_build (upperStr A) (upperStr S) (removeKey (upperStr A).data L)]
    exact ⟨_, rfl⟩
  · rw [if_neg hk]
    simp only [readAliases]
    have hk3 : hasKey (upperStr A).data L = false := by simpa using hk
    rw [removeKey_of_hasKey_false (upperStr A).data hk3]
    rw [assign_build (upperStr A) (upperStr S) L]
    exact ⟨_, rfl⟩

/-! ## Validity is preserved by upper-casing -/

theorem aliasStart_cont {c : Char} (h : isAliasStart c = true) : isAliasCont c = true := by
  simp [isAliasCont, h]

theorem validAliasC_upper {A : String} (hA : validAlias A = true) :
    validAliasC (upperStr A).data = true := by
  unfold validAlias at hA
  cases hd : A.data with
  | nil => rw [hd] at hA; simp [validAliasC] at hA
  | cons c cs =>
    rw [hd] at hA
    simp only [validAliasC, Bool.and_eq_true, List.all_eq_true] at hA
    have hmap : (upperStr A).data = upChar c :: cs.map upChar := by
      simp [upperStr, hd]
    rw [hmap]
    simp only [validAliasC, Bool.and_eq_true, List.all_eq_true]
    refine ⟨upChar_aliasStart hA.1, ?_⟩
    intro x hx
    obtain ⟨y, hy, rfl⟩ := List.mem_map.mp hx
    exact upChar_aliasCont (hA.2 y hy)

theorem validSernum_upper {S : String} (hS : validSernum S = true) :
    validSernum (upperStr S) = true := by
  unfold validSernum at hS ⊢
  simp only [Bool.and_eq_true, beq_iff_eq, List.all_eq_true] at hS ⊢
  constructor
  · simp [upperStr, hS.1]
  · intro x hx
    have hx' : x ∈ S.data.map upChar := by simpa [upperStr] using hx
    obtain ⟨y, hy, rfl⟩ := List.mem_map.mp hx'
    exact upChar_alnum (hS.2 y hy)

theorem validSernumC_upper {S : String} (hS : validSernum S = true) :
    validSernumC (upperStr S).data = true := validSernum_upper hS

theorem mem_removeKey_ne (t : List Char) :
    ∀ {L : List (String × String)} {e : String × String},
    e ∈ removeKey t L → ¬ t = e.1.data := by
  intro L
  induction L with
  | nil => intro e he; simp [removeKey] at he
  | cons x xs ih =>
    intro e he
    by_cases ht : t = x.1.data
    · rw [removeKey, if_pos ht] at he
      exact ih he
    · rw [removeKey, if_neg ht] at he
      rcases List.mem_cons.mp he with rfl | hmem
      · exact ht
      · exact ih hmem

/-! ## Claim C1 -/

/-- C1: for an alias A and serial numbers S1 ≠ S2 (serial numbers being the
upper-case 5-character identifiers of the data model), `Assign(A,S1)` then
`Assign(A,S2)` leaves the persisted list with exactly one entry for A — the
old binding is removed and the new one prepended — and `Resolve(A)` then
returns S2. -/
theorem c1_reassign_alias
    (A S1 S2 : String) (es : List (String × String)) (w : List String)
    (hA : validAlias A = true) (hS1 : validSernum S1 = true) (hS2 : validSernum S2 = true)
    (hne : S1 ≠ S2) (hS2u : upperStr S2 = S2) (hes : validList es = true) :
    entriesOfState (AssignAlias A S2 (AssignAlias A S1 ⟨some (serializeEntries es), w⟩))
        = (upperStr A, S2) :: removeKey (upperStr A).data es ∧
    (entriesOfState (AssignAlias A S2 (AssignAlias A S1 ⟨some (serializeEntries es), w⟩))).filter
        (fun e => e.1 == upperStr A) = [(upperStr A, S2)] ∧
    (GetAliasSernum A (AssignAlias A S2 (AssignAlias A S1 ⟨some (serializeEntries es), w⟩))).1
        = S2 := by
  obtain ⟨w1, h1⟩ := AssignAlias_serialized A S1 es w hes
  have hvM : validList (removeKey (upperStr A).data es) := validList_removeKey _ hes
  have hvL1 : validList ((upperStr A, upperStr S1) :: removeKey (upperStr A).data es) = true := by
    simp only [validList, List.all_cons, Bool.and_eq_true, validEntry]
    exact ⟨⟨validAliasC_upper hA, validSernumC_upper hS1⟩, by simpa [validList] using hvM⟩
  obtain ⟨w2, h2⟩ := AssignAlias_serialized A S2
    ((upperStr A, upperStr S1) :: removeKey (upperStr A).data es) w1 hvL1
  have hMfix : removeKey (upperStr A).data
      ((upperStr A, upperStr S1) :: removeKey (upperStr A).data es)
      = removeKey (upperStr A).data es := by
    rw [removeKey, if_pos rfl]
    exact removeKey_of_hasKey_false _ (hasKey_removeKey _ _)
  rw [hMfix] at h2
  have hvL2 : validList ((upperStr A, upperStr S2) :: removeKey (upperStr A).data es) = true := by
    simp only [validList, List.all_cons, Bool.and_eq_true, validEntry]
    exact ⟨⟨validAliasC_upper hA, validSernumC_upper hS2⟩, by simpa [validList] using hvM⟩
  rw [hS2u] at h2 hvL2
  rw [h1, h2]
  have hent : entriesOfState
      (⟨some (serializeEntries ((upperStr A, S2) :: removeKey (upperStr A).data es)), w2⟩ : RegState)
      = (upperStr A, S2) :: removeKey (upperStr A).data es := by
    unfold entriesOfState
    exact scanEntries_serialize hvL2
  refine ⟨hent, ?_, ?_⟩
  · rw [hent]
    rw [List.filter_cons_of_pos (by simp)]
    rw [List.filter_eq_nil_iff.mpr ?_]
    intro e he
    have := mem_removeKey_ne (upperStr A).data he
    simp only [Bool.not_eq_true, beq_eq_false_iff_ne, ne_eq]
    intro heq
    exact this (by rw [heq])
  · rw [GetAliasSernum_serialized A _ w2 hvL2]
    simp [lookupKey]

/-- C1 witness. -/
theorem c1_reassign_alias_witness :
    entriesOfState (AssignAlias "#1" "5XARZ" (AssignAlias "#1" "6QMBS"
        ⟨some (serializeEntries [("#9", "AAAAA")]), []⟩))
        = (upperStr "#1", "5XARZ") :: removeKey (upperStr "#1").data [("#9", "AAAAA")] ∧
    (entriesOfState (AssignAlias "#1" "5XARZ" (AssignAlias "#1" "6QMBS"
        ⟨some (serializeEntries [("#9", "AAAAA")]), []⟩))).filter
        (fun e => e.1 == upperStr "#1") = [(upperStr "#1", "5XARZ")] ∧
    (GetAliasSernum "#1" (AssignAlias "#1" "5XARZ" (AssignAlias "#1" "6QMBS"
        ⟨some (serializeEntries [("#9", "AAAAA")]), []⟩))).1 = "5XARZ" :=
  c1_reassign_alias "#1" "6QMBS" "5XARZ" [("#9", "AAAAA")] []
    (by decide) (by decide) (by decide) (by decide) (by decide) (by decide)

/-! ## Claim C2 -/

theorem aliasCont_ne_space {c : Char} (h : isAliasCont c = true) : c ≠ ' ' := by
  intro h2
  rw [h2] at h
  exact absurd h (by decide)

theorem alnum_ne_space {c : Char} (h : isAlnumC c = true) : c ≠ ' ' := by
  intro h2
  rw [h2] at h
  exact absurd h (by decide)

theorem entryC_no_space {e : String × String} (he : validEntry e = true) :
    ∀ c ∈ entryC e, c ≠ ' ' := by
  simp only [validEntry, Bool.and_eq_true] at he
  intro c hc
  rcases List.mem_append.mp hc with ha | hb
  · have := he.1
    cases hd : e.1.data with
    | nil => rw [hd] at this; simp [validAliasC] at this
    | cons x xs =>
      rw [hd] at this ha
      simp only [validAliasC, Bool.and_eq_true, List.all_eq_true] at this
      rcases List.mem_cons.mp ha with rfl | hmem
      · exact aliasCont_ne_space (aliasStart_cont this.1)
      · exact aliasCont_ne_space (this.2 c hmem)
  · rcases List.mem_cons.mp hb with rfl | hmem
    · decide
    · have := he.2
      simp only [validSernumC, Bool.and_eq_true, List.all_eq_true] at this
      exact alnum_ne_space (this.2 c hmem)

theorem serializeChars_no_space {L : List (String × String)} (hv : validList L = true) :
    ∀ c ∈ serializeChars L, c ≠ ' ' := by
  induction L with
  | nil => simp [serializeChars]
  | cons e es ih =>
    simp only [validList, List.all_cons, Bool.and_eq_true] at hv
    intro c hc
    cases es with
    | nil =>
      have hc' : c ∈ entryC e := by simpa [serializeChars] using hc
      exact entryC_no_space hv.1 c hc'
    | cons m ms =>
      have hc' : c ∈ entryC e ++ ',' :: serializeChars (m :: ms) := by
        simpa [serializeChars] using hc
      rcases List.mem_append.mp hc' with ha | hb
      · exact entryC_no_space hv.1 c ha
      · rcases List.mem_cons.mp hb with rfl | hmem
        · decide
        · exact ih (by simp [validList, hv.2]) c hmem

theorem serializeChars_getLast_alnum {L : List (String × String)} (hv : validList L = true) :
    ∀ c, (serializeChars L).getLast? = some c → isAlnumC c = true := by
  induction L with
  | nil => simp [serializeChars]
  | cons e es ih =>
    simp only [validList, List.all_cons, Bool.and_eq_true] at hv
    have hsn := hv.1
    simp only [validEntry, Bool.and_eq_true] at hsn
    have hlen : e.2.data.length = 5 := by
      have := hsn.2
      simp only [validSernumC, Bool.and_eq_true, beq_iff_eq] at this
      exact this.1
    have halnum : ∀ x ∈ e.2.data, isAlnumC x = true := by
      have := hsn.2
      simp only [validSernumC, Bool.and_eq_true, List.all_eq_true] at this
      exact this.2
    intro c hc
    cases es with
    | nil =>
      have hshape : serializeChars [e] = e.1.data ++ '=' :: e.2.data := by
        simp [serializeChars, entryC]
      rw [hshape] at hc
      rw [List.getLast?_append_of_ne_nil _ (by simp)] at hc
      obtain ⟨c1, c2, c3, c4, c5, hsn5⟩ := length_eq_five hlen
      rw [hsn5] at hc
      simp only [List.getLast?] at hc
      have hc5 : c = c5 := by
        simpa [List.getLast] using hc.symm
      rw [hc5]
      exact halnum c5 (by simp [hsn5])
    | cons m ms =>
      have hshape : serializeChars (e :: m :: ms)
          = entryC e ++ ',' :: serializeChars (m :: ms) := by
        simp [serializeChars]
      rw [hshape] at hc
      rw [List.getLast?_append_of_ne_nil _ (by simp)] at hc
      rw [show (',' :: serializeChars (m :: ms)) = [','] ++ serializeChars (m :: ms) from rfl] at hc
      rw [List.getLast?_append_of_ne_nil _ (serializeChars_cons_ne_nil m ms)] at hc
      exact ih (by simp [validList, hv.2]) c hc

/-- C2: for an alias list with pairwise-distinct alias keys, the save format
is `ALIAS=SERNUM` pairs joined by commas with no space and no trailing comma,
and loading (scanning) the saved string returns the list again. -/
theorem c2_save_load_roundtrip (L : List (String × String))
    (hv : validList L = true) (hnd : (L.map Prod.fst).Nodup) :
    scanEntries (serializeEntries L) = L ∧
    (∀ c ∈ (serializeEntries L).data, c ≠ ' ') ∧
    (serializeEntries L).data.getLast? ≠ some ',' := by
  refine ⟨scanEntries_serialize hv, ?_, ?_⟩
  · rw [data_serializeEntries]
    exact serializeChars_no_space hv
  · rw [data_serializeEntries]
    intro hlast
    have := serializeChars_getLast_alnum hv ',' hlast
    exact absurd this (by decide)

/-- C2 witness. -/
theorem c2_save_load_roundtrip_witness :
    scanEntries (serializeEntries [("#1", "6QMBS"), ("#2", "5XARZ")])
        = [("#1", "6QMBS"), ("#2", "5XARZ")] ∧
    (∀ c ∈ (serializeEntries [("#1", "6QMBS"), ("#2", "5XARZ")]).data, c ≠ ' ') ∧
    (serializeEntries [("#1", "6QMBS"), ("#2", "5XARZ")]).data.getLast? ≠ some ',' :=
  c2_save_load_roundtrip [("#1", "6QMBS"), ("#2", "5XARZ")] (by decide) (by decide)

/-! ## Claim C3 -/

/-- C3 counterexample: the token `"6qmbs"` matches the serial-number pattern
case-insensitively and is bound to no alias in the (empty) persisted list, yet
`GetAliasSernum` does not return it unchanged — it returns the upper-cased
form instead. -/
theorem c3_resolve_counterexample :
    validSernum "6qmbs" = true ∧
    scanEntries "" = [] ∧
    (GetAliasSernum "6qmbs" ⟨some "", []⟩).1 ≠ "6qmbs" ∧
    (GetAliasSernum "6qmbs" ⟨some "", []⟩).1 = "6QMBS" := by
  refine ⟨by decide, by decide, by decide, by decide⟩

/-- C3 (amended): for a token matching the serial-number pattern
case-insensitively with no alias bound to its normalized form, `Resolve`
returns the upper-cased token (hence the token itself whenever it is already
upper-case). -/
theorem c3_resolve_roundtrip (S : String) (es : List (String × String)) (w : List String)
    (hS : validSernum S = true) (hv : validList es = true)
    (hfree : lookupKey (upperStr S).data es = none) :
    (GetAliasSernum S ⟨some (serializeEntries es), w⟩).1 = upperStr S := by
  rw [GetAliasSernum_serialized S es w hv]
  simp [hfree, validSernum_upper hS]

/-- C3 witness. -/
theorem c3_resolve_roundtrip_witness :
    (GetAliasSernum "6qmbs" ⟨some (serializeEntries [("#1", "6QMBS")]), []⟩).1
      = upperStr "6qmbs" :=
  c3_resolve_roundtrip "6qmbs" [("#1", "6QMBS")] [] (by decide) (by decide) (by decide)

/-! ## Claim C6 -/

/-- C6: removing an alias that has no entry in the persisted list performs no
write and leaves the whole registry state (hence the persisted list)
unchanged. -/
theorem c6_remove_unassigned_noop (A : String) (es : List (String × String)) (w : List String)
    (hv : validList es = true) (hfree : hasKey (upperStr A).data es = false) :
    RemoveAlias A ⟨some (serializeEntries es), w⟩ = ⟨some (serializeEntries es), w⟩ := by
  rw [RemoveAlias_serialized A es w hv, if_neg (by simp [hfree])]

/-- C6 witness. -/
theorem c6_remove_unassigned_noop_witness :
    RemoveAlias "#9" ⟨some (serializeEntries [("#1", "6QMBS")]), []⟩
      = ⟨some (serializeEntries [("#1", "6QMBS")]), []⟩ :=
  c6_remove_unassigned_noop "#9" [("#1", "6QMBS")] [] (by decide) (by decide)

/-! ## Claim C7 -/

/-- C7: starting from an empty store, `Assign("#1","6QMBS")` then
`Assign("#2","5XARZ")` yields the persisted entries in most-recent-first
order, and `ListAlias` prints them in that order. -/
theorem c7_assign_prepends :
    entriesOfState (AssignAlias "#2" "5XARZ" (AssignAlias "#1" "6QMBS" ⟨none, []⟩))
        = [("#2", "5XARZ"), ("#1", "6QMBS")] ∧
    (listAliasOutput (AssignAlias "#2" "5XARZ" (AssignAlias "#1" "6QMBS" ⟨none, []⟩))).1
        = ["#2=5XARZ", "#1=6QMBS"] := by
  refine ⟨by decide, by decide⟩

/-! ## Claim C8 -/

theorem aliasLoop_all_good :
    ∀ (l : List String) (st : RegState),
    (∀ a ∈ l, parseAliasAssign a ≠ none ∨ parseAliasRemove a ≠ none) →
    aliasLoop l st = (l.foldl applyTok st, true) := by
  intro l
  induction l with
  | nil => intro st _; rfl
  | cons a rest ih =>
    intro st hgood
    have ha := hgood a (by simp)
    cases hp : parseAliasAssign a with
    | some p =>
      simp only [aliasLoop, hp, List.foldl_cons]
      rw [ih _ (fun x hx => hgood x (by simp [hx]))]
      simp [applyTok, hp]
    | none =>
      cases hq : parseAliasRemove a with
      | some al =>
        simp only [aliasLoop, hp, hq, List.foldl_cons]
        rw [ih _ (fun x hx => hgood x (by simp [hx]))]
        simp [applyTok, hp, hq]
      | none =>
        rw [hp] at ha
        rw [hq] at ha
        simp at ha

theorem aliasLoop_stops :
    ∀ (l : List String) (st : RegState) (bad : String) (rest : List String),
    (∀ a ∈ l, parseAliasAssign a ≠ none ∨ parseAliasRemove a ≠ none) →
    parseAliasAssign bad = none → parseAliasRemove bad = none →
    aliasLoop (l ++ bad :: rest) st = (l.foldl applyTok st, false) := by
  intro l
  induction l with
  | nil =>
    intro st bad rest _ hb1 hb2
    simp [aliasLoop, hb1, hb2]
  | cons a l' ih =>
    intro st bad rest hgood hb1 hb2
    have ha := hgood a (by simp)
    cases hp : parseAliasAssign a with
    | some p =>
      simp only [List.cons_append, aliasLoop, hp, List.foldl_cons, List.append_eq]
      rw [ih _ bad rest (fun x hx => hgood x (by simp [hx])) hb1 hb2]
      simp [applyTok, hp]
    | none =>
      cases hq : parseAliasRemove a with
      | some al =>
        simp only [List.cons_append, aliasLoop, hp, hq, List.foldl_cons, List.append_eq]
        rw [ih _ bad rest (fun x hx => hgood x (by simp [hx])) hb1 hb2]
        simp [applyTok, hp, hq]
      | none =>
        rw [hp] at ha
        rw [hq] at ha
        simp at ha

/-- C8: the alias subcommand processes its arguments right to left; the first
token that is neither an assignment nor a removal stops processing with a
syntax error, and the mutations already applied for the tokens to its right
remain in the registry; when every token is valid the aliases are re-listed
afterwards. -/
theorem c8_alias_right_to_left (chans : List (String × Nat)) (hdev : chans ≠ [])
    (st : RegState) (pre post : List String) (bad : String)
    (hb1 : parseAliasAssign bad = none) (hb2 : parseAliasRemove bad = none)
    (hpost : ∀ a ∈ post, parseAliasAssign a ≠ none ∨ parseAliasRemove a ≠ none) :
    mainAlias chans (pre ++ bad :: post) st
      = (errInt ErrC.synError, [], post.reverse.foldl applyTok st) ∧
    ∀ (args : List String) (st2 : RegState),
      (∀ a ∈ args, parseAliasAssign a ≠ none ∨ parseAliasRemove a ≠ none) →
      mainAlias chans args st2
        = (0, (listAliasOutput (args.reverse.foldl applyTok st2)).1,
              (listAliasOutput (args.reverse.foldl applyTok st2)).2) := by
  constructor
  · have hrev : (pre ++ bad :: post).reverse = post.reverse ++ bad :: pre.reverse := by
      simp [List.reverse_append]
    have hloop := aliasLoop_stops post.reverse st bad pre.reverse
      (fun a ha => hpost a (List.mem_reverse.mp ha)) hb1 hb2
    unfold mainAlias
    rw [if_neg (by simp [hdev])]
    rw [if_neg (by simp)]
    rw [hrev, hloop]
    simp
  · intro args st2 hgood
    unfold mainAlias
    rw [if_neg (by simp [hdev])]
    by_cases hargs : args = []
    · subst hargs
      simp
    · rw [if_neg (by simp [hargs])]
      rw [aliasLoop_all_good args.reverse st2 (fun a ha => hgood a (List.mem_reverse.mp ha))]
      simp

/-- C8 witness. -/
theorem c8_alias_right_to_left_witness :
    mainAlias [("6QMBS", 6)] (["-"] ++ "=" :: ["#1=6QMBS"]) ⟨some "", []⟩
      = (errInt ErrC.synError, [], ["#1=6QMBS"].reverse.foldl applyTok ⟨some "", []⟩) ∧
    mainAlias [("6QMBS", 6)] ["+#2=5XARZ"] ⟨some "", []⟩
      = (0, (listAliasOutput (["+#2=5XARZ"].reverse.foldl applyTok ⟨some "", []⟩)).1,
            (listAliasOutput (["+#2=5XARZ"].reverse.foldl applyTok ⟨some "", []⟩)).2) := by
  have h := c8_alias_right_to_left [("6QMBS", 6)] (by simp) ⟨some "", []⟩
    ["-"] ["#1=6QMBS"] "=" (by decide) (by decide)
    (by intro a ha; left; rw [show a = "#1=6QMBS" by simpa using ha]; decide)
  exact ⟨h.1, h.2 ["+#2=5XARZ"] ⟨some "", []⟩
    (by intro a ha; left; rw [show a = "+#2=5XARZ" by simpa using ha]; decide)⟩

/-! ## Claim C9 -/

/-- C9 counterexample: with no relay module enumerated, `alias` with no
arguments does not exit 0 and does not create the persisted value — `main`
fails with `NO_DEVICES` before touching the alias store. -/
theorem c9_alias_no_devices_counterexample :
    (mainAlias [] [] ⟨none, []⟩).1 = errInt ErrC.noDevices ∧
    (mainAlias [] [] ⟨none, []⟩).1 ≠ 0 ∧
    (mainAlias [] [] ⟨none, []⟩).2.1 = [] ∧
    (mainAlias [] [] ⟨none, []⟩).2.2.val = none := by
  refine ⟨by decide, by decide, by decide, by decide⟩

/-- C9 (amended): provided device enumeration returns at least one module,
running `alias` with no further arguments while the persisted value is absent
creates the value with the empty-string default, prints "No aliases defined"
and exits 0. -/
theorem c9_alias_absent_lists (chans : List (String × Nat)) (hdev : chans ≠ [])
    (w : List String) :
    mainAlias chans [] ⟨none, w⟩ = (0, ["No aliases defined"], ⟨some "", w⟩) := by
  unfold mainAlias
  rw [if_neg (by simp [hdev])]
  rw [if_pos (by simp)]
  simp [listAliasOutput, readAliases, show scanEntries "" = [] from rfl]

/-- C9 witness. -/
theorem c9_alias_absent_lists_witness :
    mainAlias [("6QMBS", 6)] [] ⟨none, []⟩ = (0, ["No aliases defined"], ⟨some "", []⟩) :=
  c9_alias_absent_lists [("6QMBS", 6)] (by simp) []

/-! ## Claim C10 -/

theorem parseChSet_shape {tok : String} {q : Char × String} (h : parseChSet tok = some q) :
    ∃ c rest, tok.data = c :: '=' :: rest := by
  unfold parseChSet at h
  cases hl : tok.data with
  | nil => rw [hl] at h; exact absurd h (by simp)
  | cons c cs =>
    cases hcs : cs with
    | nil => rw [hl, hcs] at h; exact absurd h (by simp)
    | cons sep rest =>
      rw [hl, hcs] at h
      dsimp only at h
      by_cases hsep : (sep == '=' && decide ('1' ≤ c ∧ c ≤ '8') && isLogicWord ⟨rest⟩) = true
      · have h1 : sep = '=' := by
          have h2 := hsep
          simp only [Bool.and_eq_true, beq_iff_eq] at h2
          exact h2.1.1
        subst h1
        rw [hcs] at hl
        exact ⟨c, rest, rfl⟩
      · rw [if_neg hsep] at h
        exact absurd h (by simp)

theorem parseChSet_not_aliasName {tok : String} {q : Char × String}
    (h : parseChSet tok = some q) : parseAliasName tok = none := by
  obtain ⟨c, rest, hl⟩ := parseChSet_shape h
  unfold parseAliasName
  rw [hl]
  have : (('=' :: rest).all isAliasCont) = false := by
    simp [List.all_cons, show isAliasCont '=' = false by decide]
  simp [this]

theorem parseChSet_not_sernumPattern {tok : String} {q : Char × String}
    (h : parseChSet tok = some q) : parseSernumPattern tok = none := by
  obtain ⟨c, rest, hl⟩ := parseChSet_shape h
  unfold parseSernumPattern
  rw [hl]
  dsimp only
  by_cases hc : isAliasStart c = true
  · have hdrop : ('=' :: rest).dropWhile isAliasCont = '=' :: rest := by
      simp [List.dropWhile_cons, show isAliasCont '=' = false by decide]
    simp [hc, hdrop, show ('=' == ':') = false by decide]
  · simp [hc]

/-- C10: in a `set` command, a `CH=STATE` token that appears before any
device token (the earlier tokens being neither bare alias/serial tokens nor
`SN:PATTERN` tokens) makes the command fail with a syntax error, no device
call is made, and the registry state is untouched. -/
theorem c10_chset_before_device (env : List (String × Nat × Nat)) (hdev : env ≠ [])
    (st : RegState) (pre rest : List String) (tok : String) (q : Char × String)
    (hpre : ∀ a ∈ pre, parseAliasName a = none ∧ parseSernumPattern a = none)
    (htok : parseChSet tok = some q) :
    mainSet env (pre ++ tok :: rest) st = (errInt ErrC.synError, [], st) := by
  unfold mainSet
  rw [if_neg (by simp [hdev])]
  rw [if_neg (by simp)]
  have hloop : setLoop (env.map (fun d => (d.1, d.2.1))) (pre ++ tok :: rest) st "" []
      = ([], st, ErrC.synError) := by
    cases pre with
    | nil =>
      simp only [List.nil_append, setLoop, parseChSet_not_aliasName htok,
        parseChSet_not_sernumPattern htok, htok]
      rfl
    | cons p pre' =>
      have hp := hpre p (by simp)
      cases hq : parseChSet p with
      | some q' =>
        simp only [List.cons_append, setLoop, hp.1, hp.2, hq]
        rfl
      | none =>
        simp only [List.cons_append, setLoop, hp.1, hp.2, hq]
  rw [hloop]
  rfl

/-- C10 witness. -/
theorem c10_chset_before_device_witness :
    mainSet [("6QMBS", 6, 0)] ([] ++ "3=ON" :: ["6QMBS:011XX0"]) ⟨some "", []⟩
      = (errInt ErrC.synError, [], ⟨some "", []⟩) :=
  c10_chset_before_device [("6QMBS", 6, 0)] (by simp) ⟨some "", []⟩ [] ["6QMBS:011XX0"]
    "3=ON" ('3', "ON") (by intro a ha; simp at ha) (by decide)

/-! ## Claim C4 -/

theorem data_append (a b : String) : (a ++ b).data = a.data ++ b.data := by
  cases a
  cases b
  rfl

theorem digit_facts {c : Char} (h : '1' ≤ c ∧ c ≤ '8') :
    (c == '@') = false ∧ (c == ':') = false ∧ isAliasCont c = true := by
  have h0 : ('0' : Char) ≤ c := le_trans (by decide) h.1
  have h9 : c ≤ '9' := le_trans h.2 (by decide)
  have halnum : isAlnumC c = true := by
    simp only [isAlnumC, Bool.or_eq_true, decide_eq_true_eq]
    exact Or.inr ⟨h0, h9⟩
  refine ⟨?_, ?_, ?_⟩
  · have : c ≠ '@' := by
      intro heq
      rw [heq] at halnum
      exact absurd halnum (by decide)
    exact beq_false_of_ne this
  · have : c ≠ ':' := by
      intro heq
      rw [heq] at halnum
      exact absurd halnum (by decide)
    exact beq_false_of_ne this
  · simp [isAliasCont, isAliasStart, halnum]

theorem alnum_not_sep {c : Char} (h : isAlnumC c = true) :
    (c == '@') = false ∧ (c == ':') = false := by
  constructor
  · refine beq_false_of_ne ?_
    intro heq
    rw [heq] at h
    exact absurd h (by decide)
  · refine beq_false_of_ne ?_
    intro heq
    rw [heq] at h
    exact absurd h (by decide)

theorem alnum_aliasCont {c : Char} (h : isAlnumC c = true) : isAliasCont c = true := by
  simp [isAliasCont, isAliasStart, h]

/-- The backtracking search of `regex_query_chlist` on a token of the shape
`alias-characters ++ '@' :: digits`: every longer alias candidate fails
(the following character is a digit, not a separator), and the `'@'` split
succeeds. -/
theorem tryChlistK_split (c0 : Char) (pre ds : List Char)
    (hpre : ∀ c ∈ pre, (c == '@') = false ∧ (c == ':') = false)
    (hds : ∀ c ∈ ds, '1' ≤ c ∧ c ≤ '8')
    (hok : chsOK ds = true) :
    ∀ k, pre.length ≤ k → k ≤ pre.length + 1 + ds.length →
      tryChlistK c0 (pre ++ '@' :: ds) k = some (⟨c0 :: pre⟩, ⟨ds⟩) := by
  intro k
  induction k with
  | zero =>
    intro hk _
    have hpre0 : pre = [] := List.length_eq_zero.mp (Nat.le_zero.mp hk)
    subst hpre0
    simp [tryChlistK, hok]
  | succ k ih =>
    intro hk1 hk2
    by_cases heq : pre.length = k + 1
    · have hdrop : (pre ++ '@' :: ds).drop (k + 1) = '@' :: ds := by
        rw [← heq]
        exact List.drop_left pre ('@' :: ds)
      have htake : (pre ++ '@' :: ds).take (k + 1) = pre := by
        rw [← heq]
        exact List.take_left pre ('@' :: ds)
      simp only [tryChlistK, hdrop, htake]
      simp [hok]
    · have hlt : pre.length ≤ k := by omega
      have hrec := ih hlt (by omega)
      have hdrop : (pre ++ '@' :: ds).drop (k + 1)
          = ('@' :: ds).drop (k + 1 - pre.length) := by
        have h : (pre ++ '@' :: ds).drop (pre.length + (k + 1 - pre.length))
            = ('@' :: ds).drop (k + 1 - pre.length) := List.drop_append _
        rw [show pre.length + (k + 1 - pre.length) = k + 1 by omega] at h
        exact h
      have hdrop2 : ('@' :: ds).drop (k + 1 - pre.length)
          = ds.drop (k + 1 - pre.length - 1) := by
        rw [show k + 1 - pre.length = (k - pre.length) + 1 by omega]
        simp
      rw [hdrop2] at hdrop
      cases hdd : ds.drop (k + 1 - pre.length - 1) with
      | nil =>
        simp only [tryChlistK, hdrop, hdd]
        exact hrec
      | cons d tail =>
        have hd : d ∈ ds := List.drop_subset _ ds (by rw [hdd]; simp)
        have hdf := digit_facts (hds d hd)
        simp only [tryChlistK, hdrop, hdd, hdf.1, hdf.2.1, Bool.or_self, Bool.false_and,
          Bool.false_or, if_false]
        exact hrec

theorem validSernum_shape {sn : String} (hsn : validSernum sn = true) :
    ∃ c cs, sn.data = c :: cs ∧ isAlnumC c = true ∧ (∀ x ∈ cs, isAlnumC x = true) := by
  unfold validSernum at hsn
  simp only [Bool.and_eq_true, beq_iff_eq, List.all_eq_true] at hsn
  cases hd : sn.data with
  | nil => rw [hd] at hsn; simp at hsn
  | cons c cs =>
    rw [hd] at hsn
    exact ⟨c, cs, rfl, hsn.2 c (by simp), fun x hx => hsn.2 x (by simp [hx])⟩

/-- `regex_query_chlist` on `SN@CHS` for a well-formed serial number and
digit list: the alias capture is the serial number and the channel capture
is the digit list. -/
theorem parseQueryChlist_token (sn chs : String)
    (hsn : validSernum sn = true)
    (hch : ∀ c ∈ chs.data, '1' ≤ c ∧ c ≤ '8')
    (hne : chs.data ≠ []) (hlen : chs.data.length ≤ 8) :
    parseQueryChlist (sn ++ "@" ++ chs) = some (sn, chs) := by
  obtain ⟨c, cs, hd, hc, hcs⟩ := validSernum_shape hsn
  have hdata : (sn ++ "@" ++ chs).data = c :: (cs ++ '@' :: chs.data) := by
    rw [data_append, data_append, hd]
    simp
  have hok : chsOK chs.data = true := by
    have h1 : chs.data.isEmpty = false := by
      cases hcd : chs.data with
      | nil => exact absurd hcd hne
      | cons x xs => rfl
    have hall : chs.data.all (fun c => decide ('1' ≤ c ∧ c ≤ '8')) = true := by
      rw [List.all_eq_true]
      intro x hx
      exact decide_eq_true (hch x hx)
    unfold chsOK
    rw [h1, decide_eq_true hlen, hall]
    rfl
  have hcont : ∀ x ∈ cs ++ '@' :: chs.data, isAliasCont x = true := by
    intro x hx
    rcases List.mem_append.mp hx with h1 | h2
    · exact alnum_aliasCont (hcs x h1)
    · rcases List.mem_cons.mp h2 with rfl | h3
      · decide
      · exact (digit_facts (hch x h3)).2.2
  have htw : ((cs ++ '@' :: chs.data).takeWhile isAliasCont) = cs ++ '@' :: chs.data :=
    List.takeWhile_eq_self_iff.mpr hcont
  have hsplit := tryChlistK_split c cs chs.data
    (fun x hx => alnum_not_sep (hcs x hx)) hch hok
    (cs ++ '@' :: chs.data).length (by simp)
    (by simp only [List.length_append, List.length_cons]; omega)
  unfold parseQueryChlist
  rw [hdata]
  have hstart : isAliasStart c = true := by simp [isAliasStart, hc]
  dsimp only
  rw [if_pos hstart, htw, hsplit, ← hd, stringMk_data sn, stringMk_data chs]

/-- C4 counterexample: `query 6QMBS@8` against a 6-channel module — the
channel digit 8 exceeds the channel count, yet the command succeeds with exit
code 0 instead of failing with InvalidChannel; the out-of-range channel is
silently skipped in the output. -/
theorem c4_query_digit_counterexample :
    parseQueryChlist "6QMBS@8" = some ("6QMBS", "8") ∧
    (mainQuery [("6QMBS", 6, 11)] ["6QMBS@8"] ⟨some "", []⟩).1 = 0 ∧
    (mainQuery [("6QMBS", 6, 11)] ["6QMBS@8"] ⟨some "", []⟩).1 ≠ errInt ErrC.invalidChannel := by
  refine ⟨by decide, by decide, by decide⟩

/-- C4 (amended): for `query SN@CHS` against an enumerated module `SN` with
`n ≥ 1` channels, the command fails with InvalidChannel exactly when the
channel list is longer than `n`; a channel digit exceeding `n` does not by
itself cause the error. -/
theorem c4_query_channel_length (sn chs : String) (n stat : Nat) (w : List String)
    (hsn : validSernum sn = true) (hup : upperStr sn = sn)
    (hne : chs.data ≠ []) (hlen : chs.data.length ≤ 8)
    (hch : ∀ c ∈ chs.data, '1' ≤ c ∧ c ≤ '8') (hn : 1 ≤ n) :
    (mainQuery [(sn, n, stat)] [sn ++ "@" ++ chs] ⟨some "", w⟩).1
      = if chs.data.length ≤ n then 0 else errInt ErrC.invalidChannel := by
  have hparse := parseQueryChlist_token sn chs hsn hch hne hlen
  have hsnne : sn.data.isEmpty = false := by
    obtain ⟨c, cs, hd, _, _⟩ := validSernum_shape hsn
    rw [hd]
    rfl
  have hget := GetAliasSernum_serialized sn [] w (by decide)
  rw [hup] at hget
  simp only [lookupKey, hsn, if_true] at hget
  have hst : (⟨some "", w⟩ : RegState) = ⟨some (serializeEntries []), w⟩ := rfl
  have hpres : isSernumPresent sn [(sn, n)] = true := by
    simp [isSernumPresent, hsnne]
  have hnum : numChannels sn [(sn, n)] = n := by
    simp [numChannels, hsnne, List.find?]
  unfold mainQuery
  simp only [List.map_cons, List.map_nil, List.isEmpty_cons, if_false]
  unfold queryLoop
  rw [hparse]
  dsimp only
  rw [hst, hget]
  dsimp only
  rw [hpres, hnum]
  rw [if_pos rfl]
  by_cases hc : chs.data.length ≤ n
  · rw [if_pos hc, if_pos hc]
    unfold queryLoop
    have hrun : (relaysQueryRun [(sn, n, stat)] [(sn, chs)]).2 = ErrC.noErr := by
      unfold relaysQueryRun
      simp only [List.foldl_cons, List.foldl_nil]
      rw [if_neg (by simp [hsnne])]
      simp [List.find?, show ¬ n < 1 by omega, show ¬ n = 0 by omega]
    simp [hrun, errInt]
  · rw [if_neg hc, if_neg hc]
    simp

/-- C4 witness. -/
theorem c4_query_channel_length_witness :
    (mainQuery [("6QMBS", 6, 11)] ["6QMBS" ++ "@" ++ "8"] ⟨some "", []⟩).1
      = if ("8" : String).data.length ≤ 6 then 0 else errInt ErrC.invalidChannel :=
  c4_query_channel_length "6QMBS" "8" 6 11 []
    (by decide) (by decide) (by decide) (by decide) (by decide) (by omega)

theorem parseSernumPattern_token (sn P : String)
    (hsn : validSernum sn = true)
    (hne : P.data ≠ []) (hlen : P.data.length ≤ 8)
    (hbits : ∀ c ∈ P.data, isBitChar c = true) :
    parseSernumPattern (sn ++ ":" ++ P) = some (sn, P) := by
  obtain ⟨c, cs, hd, hc, hcs⟩ := validSernum_shape hsn
  have hdata : (sn ++ ":" ++ P).data = c :: (cs ++ ':' :: P.data) := by
    rw [data_append, data_append, hd]
    simp
  have hmid := takeWhile_middle isAliasCont cs ':' P.data
    (fun x hx => alnum_aliasCont (hcs x hx)) (by decide)
  have hstart : isAliasStart c = true := by simp [isAliasStart, hc]
  have hPne : P.data.isEmpty = false := by
    cases hq : P.data with
    | nil => exact absurd hq hne
    | cons x xs => rfl
  have hall : P.data.all isBitChar = true := List.all_eq_true.mpr hbits
  unfold parseSernumPattern
  rw [hdata]
  dsimp only
  rw [if_pos hstart, hmid.2]
  dsimp only
  rw [hmid.1]
  rw [if_pos (by rw [hPne, hall, decide_eq_true hlen]; rfl)]
  rw [← hd, stringMk_data sn, stringMk_data P]

theorem parseAliasName_colon_none (sn P : String) (hsn : validSernum sn = true) :
    parseAliasName (sn ++ ":" ++ P) = none := by
  obtain ⟨c, cs, hd, hc, hcs⟩ := validSernum_shape hsn
  have hdata : (sn ++ ":" ++ P).data = c :: (cs ++ ':' :: P.data) := by
    rw [data_append, data_append, hd]
    simp
  unfold parseAliasName
  rw [hdata]
  dsimp only
  have hall : ((cs ++ ':' :: P.data).all isAliasCont) = false := by
    cases hq : (cs ++ ':' :: P.data).all isAliasCont with
    | false => rfl
    | true =>
      have := List.all_eq_true.mp hq ':' (by simp)
      exact absurd this (by decide)
  simp [hall]

theorem chanChar_mono : ∀ k < 9, ∀ j < k, chanChar j < chanChar k := by decide

theorem chanChar_ne_zero : ∀ j < 8, chanChar j ≠ '0' := by decide

theorem chanChar_idx : ∀ j < 8, (chanChar j).toNat - 49 + 1 = j + 1 := by decide

theorem mapInsertC_append (k : Char) (v : LOGIC) :
    ∀ m : List (Char × LOGIC), (∀ p ∈ m, p.1 < k) → mapInsertC k v m = m ++ [(k, v)] := by
  intro m
  induction m with
  | nil => intro; rfl
  | cons e rest ih =>
    intro h
    have he : e.1 < k := h e (by simp)
    rw [mapInsertC, if_neg (lt_asymm he), if_neg ?hne]
    · rw [ih (fun p hp => h p (by simp [hp]))]
      simp
    · intro heq
      rw [heq] at he
      exact lt_irrefl _ he

theorem buildPatternAux_spec : ∀ (pat : List Char) (j : Nat) (m : List (Char × LOGIC)),
    j + pat.length ≤ 8 → (∀ p ∈ m, p.1 < chanChar j) →
    buildPatternAux pat j m = m ++ patEntries j pat := by
  intro pat
  induction pat with
  | nil =>
    intro j m _ _
    simp [buildPatternAux, patEntries]
  | cons c cs ih =>
    intro j m hle hm
    have hlen : j + (cs.length + 1) ≤ 8 := by simpa using hle
    rw [buildPatternAux, mapInsertC_append _ _ m hm]
    rw [ih (j + 1) _ (by omega) ?hm2]
    · simp [patEntries]
    · intro p hp
      rcases List.mem_append.mp hp with h1 | h2
      · exact lt_trans (hm p h1) (chanChar_mono (j + 1) (by omega) j (by omega))
      · rw [show p = (chanChar j, getStateChar c) by simpa using h2]
        exact chanChar_mono (j + 1) (by omega) j (by omega)

theorem bitChar_of_mem7 {c : Char}
    (h : c ∈ (['0', '1', 'L', 'H', 'X', '_', '.'] : List Char)) : isBitChar c = true := by
  fin_cases h <;> decide

theorem stateCall_spec (sn : String) (i : Nat) (c : Char)
    (hc : c ∈ (['0', '1', 'L', 'H', 'X', '_', '.'] : List Char)) :
    (match getStateChar c with
     | LOGIC.H => [DevCall.setCh sn i]
     | LOGIC.L => [DevCall.clearCh sn i]
     | LOGIC.X => []) = specStateCall sn i c := by
  fin_cases hc <;> rfl

theorem moduleCalls_patEntries (sn : String) : ∀ (pat : List Char) (j : Nat),
    j + pat.length ≤ 8 → (∀ c ∈ pat, c ∈ (['0', '1', 'L', 'H', 'X', '_', '.'] : List Char)) →
    moduleCalls sn (patEntries j pat) = specPatternCallsAux sn (j + 1) pat := by
  intro pat
  induction pat with
  | nil => intro j _ _; rfl
  | cons c cs ih =>
    intro j hle hmem
    have hlen : j + (cs.length + 1) ≤ 8 := by simpa using hle
    have hj : j < 8 := by omega
    have hrec := ih (j + 1) (by omega) (fun x hx => hmem x (by simp [hx]))
    have hflat : moduleCalls sn (patEntries j (c :: cs))
        = (if chanChar j = '0' then
             match getStateChar c with
             | LOGIC.H => [DevCall.openAll sn]
             | LOGIC.L => [DevCall.closeAll sn]
             | LOGIC.X => []
           else
             match getStateChar c with
             | LOGIC.H => [DevCall.setCh sn ((chanChar j).toNat - 49 + 1)]
             | LOGIC.L => [DevCall.clearCh sn ((chanChar j).toNat - 49 + 1)]
             | LOGIC.X => [])
          ++ moduleCalls sn (patEntries (j + 1) cs) := by
      simp [patEntries, moduleCalls]
    rw [hflat, if_neg (chanChar_ne_zero j hj), chanChar_idx j hj, hrec,
      stateCall_spec sn (j + 1) c (hmem c (by simp))]
    rfl

/-- C5: for `set SN:P` on an enumerated module with `n` channels, if `P` is
no longer than `n` its characters drive channels `1..len(P)` in order with
`0`/`L` clearing, `1`/`H` setting and `X`/`_`/`.` producing no device call at
all; a pattern longer than `n` fails with InvalidChannel and produces no
device call. -/
theorem c5_set_pattern (sn P : String) (n stat : Nat) (w : List String)
    (hsn : validSernum sn = true) (hup : upperStr sn = sn)
    (hne : P.data ≠ []) (hlen : P.data.length ≤ 8)
    (hPch : ∀ c ∈ P.data, c ∈ (['0', '1', 'L', 'H', 'X', '_', '.'] : List Char)) :
    mainSet [(sn, n, stat)] [sn ++ ":" ++ P] ⟨some "", w⟩
      = if P.data.length ≤ n then (0, specPatternCalls sn P.data, ⟨some "", w⟩)
        else (errInt ErrC.invalidChannel, [], ⟨some "", w⟩) := by
  have hbits : ∀ c ∈ P.data, isBitChar c = true := fun c hc => bitChar_of_mem7 (hPch c hc)
  have hparse := parseSernumPattern_token sn P hsn hne hlen hbits
  have hname := parseAliasName_colon_none sn P hsn
  have hsnne : sn.data.isEmpty = false := by
    obtain ⟨c, cs, hd, _, _⟩ := validSernum_shape hsn
    rw [hd]
    rfl
  have hget := GetAliasSernum_serialized sn [] w (by decide)
  rw [hup] at hget
  simp only [lookupKey, hsn, if_true] at hget
  have hst : (⟨some "", w⟩ : RegState) = ⟨some (serializeEntries []), w⟩ := rfl
  have hpres : isSernumPresent sn [(sn, n)] = true := by
    simp [isSernumPresent, hsnne]
  have hnum : numChannels sn [(sn, n)] = n := by
    simp [numChannels, hsnne, List.find?]
  have hbp : buildPattern P.data = patEntries 0 P.data := by
    have := buildPatternAux_spec P.data 0 [] (by omega) (by simp)
    simpa [buildPattern] using this
  have hsnne2 : sn.data ≠ [] := by
    obtain ⟨c, cs, hd, _, _⟩ := validSernum_shape hsn
    rw [hd]
    simp
  have hcalls : relaysSetCalls [(sn, n)] [(sn, buildPattern P.data)]
      = specPatternCalls sn P.data := by
    have h1 : relaysSetCalls [(sn, n)] [(sn, buildPattern P.data)]
        = moduleCalls (upperStr sn) (buildPattern P.data) := by
      simp [relaysSetCalls, hsnne, hsnne2]
    rw [h1, hup, hbp]
    have := moduleCalls_patEntries sn P.data 0 (by omega) hPch
    simpa [specPatternCalls] using this
  unfold mainSet
  simp only [List.map_cons, List.map_nil, List.isEmpty_cons, if_false]
  rw [if_neg (by simp)]
  unfold setLoop
  rw [hname, hparse]
  dsimp only
  rw [hst, hget]
  dsimp only
  rw [hpres, hnum]
  rw [if_pos rfl]
  by_cases hc : P.data.length ≤ n
  · rw [if_pos hc, if_pos hc]
    unfold setLoop
    dsimp only
    rw [show mapInsertS sn (buildPattern P.data) [] = [(sn, buildPattern P.data)] from rfl]
    rw [if_pos rfl]
    rw [hcalls]
    simp
  · rw [if_neg hc, if_neg hc]
    rw [if_neg (by simp)]
    rfl

/-- C5 witness. -/
theorem c5_set_pattern_witness :
    mainSet [("6QMBS", 6, 0)] ["6QMBS" ++ ":" ++ "011XX0"] ⟨some "", []⟩
      = if ("011XX0" : String).data.length ≤ 6 then
          (0, specPatternCalls "6QMBS" ("011XX0" : String).data, ⟨some "", []⟩)
        else (errInt ErrC.invalidChannel, [], ⟨some "", []⟩) :=
  c5_set_pattern "6QMBS" "011XX0" 6 0 []
    (by decide) (by decide) (by decide) (by decide) (by decide)

end Relay
